import Mathlib

/-! Shallow embedding of the purchase-leaderboard module (lab4.py) and of the
word-frequency counter (coursework-1/main.py), together with proofs of the
ranking, accumulation and error-handling properties of the two modules.
Python dictionaries are modelled as insertion-ordered association lists,
floating-point amounts as rationals, and a raised exception either as the
error branch of an Except value (for constructors and value-returning
methods) or as an Option String component next to the post-call object state
(for mutating methods, so that atomicity on error is expressible). -/

deriving instance DecidableEq for Except

namespace Spec2Proof

/-- Python dict lookup with a default, d.get(k, default): the value of the
first entry whose key matches, or the default when no entry matches. -/
def dictGet {V : Type} (l : List (String × V)) (k : String) (d : V) : V :=
  match l with
  | [] => d
  | (k₁, v₁) :: t => if k₁ = k then v₁ else dictGet t k d

/-- Python dict assignment d[k] = v: replaces the value of an existing key in
place, otherwise appends the new entry at the end (insertion order). -/
def dictSet {V : Type} (l : List (String × V)) (k : String) (v : V) : List (String × V) :=
  match l with
  | [] => [(k, v)]
  | (k₁, v₁) :: t => if k₁ = k then (k, v) :: t else (k₁, v₁) :: dictSet t k v

/-- The Counter class of coursework-1/main.py: a dict from words to integer
counts. -/
structure Counter where
  words : List (String × ℤ)

/-- The Counter initialiser: an empty dict. -/
def Counter.empty : Counter := ⟨[]⟩

/-- Counter.add: raises ValueError when n is less than 1, otherwise adds n to
the stored count of the word (0 when the word is absent). The first component
is the object state after the call; the second models a raised exception. -/
def Counter.add (c : Counter) (item : String) (n : ℤ) : Counter × Option String :=
  if n < 1 then (c, some "Repetition count is less than 1")
  else (⟨dictSet c.words item (dictGet c.words item 0 + n)⟩, none)

/-- Counter.count: the stored count of a word, 0 when never added. -/
def Counter.count (c : Counter) (item : String) : ℤ :=
  dictGet c.words item 0

/-- Counter.most_common: raises ValueError on an empty counter; otherwise
takes the maximum stored count, collects every word attaining it in dict
order, sorts those words ascending and returns the first together with the
count. -/
def Counter.most_common (c : Counter) : Except String (String × ℤ) :=
  match c.words with
  | [] => .error "Counter is empty"
  | (k₁, v₁) :: t =>
    let highest := (t.map Prod.snd).foldl max v₁
    let highest_list := (((k₁, v₁) :: t).filter (fun e => decide (e.2 = highest))).map Prod.fst
    match List.insertionSort (· ≤ ·) highest_list with
    | [] => .error "IndexError"
    | k :: _ => .ok (k, highest)

/-- One step of a sequence of Counter.add calls: a pending exception stops
the run, otherwise the next call executes on the current state. -/
def addStep (st : Counter × Option String) (op : String × ℤ) : Counter × Option String :=
  match st.2 with
  | some e => (st.1, some e)
  | none => st.1.add op.1 op.2

/-- Runs a sequence of Counter.add calls starting from an empty counter,
stopping at the first raised exception. -/
def runAdds (ops : List (String × ℤ)) : Counter × Option String :=
  ops.foldl addStep (Counter.empty, none)

/-- A Purchase object of lab4.py: the stored (trimmed) user, the stored
(trimmed) country and the current amount. -/
structure Purchase where
  user : String
  country : String
  amount : ℚ
  deriving DecidableEq

/-- The Purchase initialiser: raises ValueError when the user is blank after
trimming or the amount is negative; otherwise stores the trimmed user, the
trimmed country and the amount. -/
def Purchase.init (user : String) (country : String) (amount : ℚ) : Except String Purchase :=
  if user.trim = "" then .error "user must be non-empty"
  else if amount < 0 then .error "amount must be non-negative"
  else .ok ⟨user.trim, country.trim, amount⟩

/-- Purchase.is_in_country: equality of the stored country with the
argument. -/
def Purchase.is_in_country (p : Purchase) (country : String) : Bool :=
  p.country == country

/-- Purchase.apply_fee: raises ValueError on a negative fee, otherwise adds
the fee to the amount. The first component is the object state after the
call; the second models a raised exception. -/
def Purchase.apply_fee (p : Purchase) (fee : ℚ) : Purchase × Option String :=
  if fee < 0 then (p, some "fee must be non-negative")
  else (⟨p.user, p.country, p.amount + fee⟩, none)

/-- total_spend_by_user: folds over the purchases in order, accumulating the
amount of each purchase made in the requested country under its user. -/
def total_spend_by_user (purchases : List Purchase) (country : String) :
    List (String × ℚ) :=
  purchases.foldl
    (fun totals p =>
      if p.is_in_country country then
        dictSet totals p.user (dictGet totals p.user 0 + p.amount)
      else totals)
    []

/-- The comparison underlying sorted(..., key (-value, key)): lexicographic
order on the pair of the negated value and the key. -/
def rankLe {α : Type} [LinearOrderedAddCommGroup α] (a b : String × α) : Prop :=
  -a.2 < -b.2 ∨ (-a.2 = -b.2 ∧ a.1 ≤ b.1)

instance {α : Type} [LinearOrderedAddCommGroup α] : DecidableRel (rankLe (α := α)) :=
  fun a b => inferInstanceAs (Decidable (-a.2 < -b.2 ∨ (-a.2 = -b.2 ∧ a.1 ≤ b.1)))

instance {α : Type} [LinearOrderedAddCommGroup α] : IsTotal (String × α) rankLe :=
  ⟨fun a b => by
    unfold rankLe
    rcases lt_trichotomy (-a.2) (-b.2) with h | h | h
    · exact Or.inl (Or.inl h)
    · rcases le_total a.1 b.1 with hk | hk
      · exact Or.inl (Or.inr ⟨h, hk⟩)
      · exact Or.inr (Or.inr ⟨h.symm, hk⟩)
    · exact Or.inr (Or.inl h)⟩

instance {α : Type} [LinearOrderedAddCommGroup α] : IsTrans (String × α) rankLe :=
  ⟨fun a b c hab hbc => by
    unfold rankLe at hab hbc ⊢
    rcases hab with h₁ | ⟨h₁, hk₁⟩
    · rcases hbc with h₂ | ⟨h₂, _⟩
      · exact Or.inl (h₁.trans h₂)
      · exact Or.inl (h₂ ▸ h₁)
    · rcases hbc with h₂ | ⟨h₂, hk₂⟩
      · exact Or.inl (h₁ ▸ h₂)
      · exact Or.inr ⟨h₁.trans h₂, hk₁.trans hk₂⟩⟩

/-- The sort performed by top_users: stable sort of the dict entries by
descending value, ascending key on ties. -/
def rankSort {α : Type} [LinearOrderedAddCommGroup α] (l : List (String × α)) :
    List (String × α) :=
  List.insertionSort rankLe l

/-- Python list slicing l[:limit] with an integer limit: a nonnegative limit
keeps at most the first limit elements; a negative limit drops the last
abs(limit) elements. -/
def pySliceTo {β : Type} (l : List β) (limit : ℤ) : List β :=
  if 0 ≤ limit then l.take limit.toNat else l.take (l.length - (-limit).toNat)

/-- top_users of lab4.py: the dict entries sorted with key (-total, user),
truncated by the slice [:limit]. -/
def top_users (totals : List (String × ℚ)) (limit : ℤ) : List (String × ℚ) :=
  pySliceTo (rankSort totals) limit

/-- Constructs one Purchase per (user, country, amount) record in order,
propagating the first initialiser error: the record-construction loop of
parse_purchases after field splitting. -/
def initAll (records : List (String × String × ℚ)) : Except String (List Purchase) :=
  match records with
  | [] => .ok []
  | (u, co, a) :: rest =>
    match Purchase.init u co a with
    | .error e => .error e
    | .ok p =>
      match initAll rest with
      | .error e => .error e
      | .ok ps => .ok (p :: ps)

/-- build_filtered_ledger of the specification, realised by the code as
constructing the Purchase records (validation lives in the initialiser) and
aggregating them with total_spend_by_user. -/
def build_filtered_ledger (records : List (String × String × ℚ)) (category : String) :
    Except String (List (String × ℚ)) :=
  match initAll records with
  | .error e => .error e
  | .ok ps => .ok (total_spend_by_user ps category)

/-- The five demo purchase records of main in lab4.py. -/
def rawRecords : List (String × String × ℚ) :=
  [("alice", "UK", 10), ("bob", "UK", 3.5), ("alice", "UK", 2),
   ("carla", "FR", 100), ("bob", "UK", 5)]

/-- The main pipeline of lab4.py: parse the five demo records, apply a fee of
0.25 to the first purchase, aggregate the UK totals and keep the top 3. -/
def mainLeaders : Except String (List (String × ℚ)) :=
  match initAll rawRecords with
  | .error e => .error e
  | .ok [] => .error "IndexError"
  | .ok (p :: rest) =>
    match p.apply_fee 0.25 with
    | (_, some e) => .error e
    | (p₁, none) => .ok (top_users (total_spend_by_user (p₁ :: rest) "UK") 3)

/-- Counter states reachable from an empty counter through add calls with
valid repetition counts. -/
inductive CounterReach : Counter → Prop where
  | empty : CounterReach Counter.empty
  | step (c : Counter) (item : String) (n : ℤ) :
      CounterReach c → 1 ≤ n → CounterReach (c.add item n).1

theorem dictGet_dictSet {V : Type} (l : List (String × V)) (k key : String) (v d : V) :
    dictGet (dictSet l k v) key d = if key = k then v else dictGet l key d := by
  induction l with
  | nil =>
    by_cases h : key = k
    · simp [dictSet, dictGet, h]
    · have h' : ¬(k = key) := fun hh => h hh.symm
      simp [dictSet, dictGet, h, h']
  | cons e t ih =>
    obtain ⟨k₁, v₁⟩ := e
    by_cases h₁ : k₁ = k
    · subst h₁
      by_cases h₂ : key = k₁
      · subst h₂
        simp [dictSet, dictGet]
      · have h₂' : ¬(k₁ = key) := fun hh => h₂ hh.symm
        simp [dictSet, dictGet, h₂, h₂']
    · by_cases h₂ : k₁ = key
      · subst h₂
        simp [dictSet, dictGet, h₁]
      · have h₂' : ¬(k₁ = key) := h₂
        simp [dictSet, dictGet, h₁, h₂', ih]

theorem mem_dictSet {V : Type} {l : List (String × V)} {k : String} {v : V} {e : String × V}
    (he : e ∈ dictSet l k v) : e = (k, v) ∨ e ∈ l := by
  induction l with
  | nil => simpa [dictSet] using he
  | cons e₁ t ih =>
    obtain ⟨k₁, v₁⟩ := e₁
    by_cases h₁ : k₁ = k
    · rcases (by simpa [dictSet, h₁] using he : e = (k, v) ∨ e ∈ t) with h | h
      · exact Or.inl h
      · exact Or.inr (List.mem_cons_of_mem _ h)
    · rcases (by simpa [dictSet, h₁] using he : e = (k₁, v₁) ∨ e ∈ dictSet t k v) with h | h
      · exact Or.inr (h ▸ List.mem_cons_self _ _)
      · rcases ih h with h₂ | h₂
        · exact Or.inl h₂
        · exact Or.inr (List.mem_cons_of_mem _ h₂)

theorem dictGet_eq_or_mem {V : Type} (l : List (String × V)) (k : String) (d : V) :
    dictGet l k d = d ∨ (k, dictGet l k d) ∈ l := by
  induction l with
  | nil => exact Or.inl rfl
  | cons e t ih =>
    obtain ⟨k₁, v₁⟩ := e
    by_cases h₁ : k₁ = k
    · subst h₁
      exact Or.inr (by simp [dictGet])
    · rcases ih with h | h
      · exact Or.inl (by simpa [dictGet, h₁] using h)
      · refine Or.inr ?_
        have : dictGet ((k₁, v₁) :: t) k d = dictGet t k d := by simp [dictGet, h₁]
        rw [this]
        exact List.mem_cons_of_mem _ h

theorem counter_count_add (c : Counter) (item : String) (n : ℤ) (hn : 1 ≤ n) :
    (c.add item n).2 = none ∧
    ∀ key, (c.add item n).1.count key = c.count key + if item = key then n else 0 := by
  have hlt : ¬n < 1 := not_lt.mpr hn
  constructor
  · simp [Counter.add, hlt]
  · intro key
    simp only [Counter.add, hlt, if_false, Counter.count]
    rw [dictGet_dictSet]
    by_cases h : key = item
    · subst h
      simp
    · have h' : ¬(item = key) := fun hh => h hh.symm
      simp [h, h']

theorem foldl_addStep (ops : List (String × ℤ)) (c : Counter)
    (hpos : ∀ op ∈ ops, 1 ≤ op.2) :
    (ops.foldl addStep (c, none)).2 = none ∧
    ∀ key, (ops.foldl addStep (c, none)).1.count key =
      c.count key + ((ops.filter (fun op => decide (op.1 = key))).map Prod.snd).sum := by
  induction ops generalizing c with
  | nil => simp
  | cons op t ih =>
    have hop : 1 ≤ op.2 := hpos op (List.mem_cons_self _ _)
    have ht : ∀ o ∈ t, 1 ≤ o.2 := fun o ho => hpos o (List.mem_cons_of_mem _ ho)
    have hstep : addStep (c, none) op = c.add op.1 op.2 := rfl
    have hcc := counter_count_add c op.1 op.2 hop
    have hpair : c.add op.1 op.2 = ((c.add op.1 op.2).1, none) := by
      rw [← hcc.1]
    have hfold : (op :: t).foldl addStep (c, none) =
        t.foldl addStep ((c.add op.1 op.2).1, none) := by
      rw [List.foldl_cons, hstep, hpair]
    rcases ih ((c.add op.1 op.2).1) ht with ⟨h₁, h₂⟩
    refine ⟨by rw [hfold]; exact h₁, ?_⟩
    intro key
    rw [hfold, h₂ key, hcc.2 key]
    by_cases h : op.1 = key
    · simp [h, add_assoc]
    · simp [h]

/-- Claim C2: for every finite sequence of Counter.add calls with amounts at
least 1, starting from an empty counter, the run raises nothing, the count of
every key equals the sum of the amounts added under that key, and the count
of a key never added is 0. -/
theorem counter_add_count_sum (ops : List (String × ℤ))
    (hpos : ∀ op ∈ ops, 1 ≤ op.2) :
    (runAdds ops).2 = none ∧
    (∀ key, (runAdds ops).1.count key =
      ((ops.filter (fun op => decide (op.1 = key))).map Prod.snd).sum) ∧
    (∀ key, (∀ op ∈ ops, op.1 ≠ key) → (runAdds ops).1.count key = 0) := by
  rcases foldl_addStep ops Counter.empty hpos with ⟨h₁, h₂⟩
  have hc : ∀ key, Counter.empty.count key = 0 := fun _ => rfl
  refine ⟨h₁, fun key => by rw [runAdds, h₂ key, hc key, zero_add], ?_⟩
  intro key hnone
  rw [runAdds, h₂ key, hc key, zero_add]
  have : ops.filter (fun op => decide (op.1 = key)) = [] := by
    rw [List.filter_eq_nil_iff]
    intro op hop
    simpa using hnone op hop
  rw [this]
  rfl

theorem counter_add_count_sum_witness :
    (∀ op ∈ [("a", (2:ℤ)), ("b", 1), ("a", 3)], 1 ≤ op.2) ∧
    ((runAdds [("a", 2), ("b", 1), ("a", 3)]).2 = none ∧
      (∀ key, (runAdds [("a", 2), ("b", 1), ("a", 3)]).1.count key =
        (([("a", (2:ℤ)), ("b", 1), ("a", 3)].filter
          (fun op => decide (op.1 = key))).map Prod.snd).sum) ∧
      (∀ key, (∀ op ∈ [("a", (2:ℤ)), ("b", 1), ("a", 3)], op.1 ≠ key) →
        (runAdds [("a", 2), ("b", 1), ("a", 3)]).1.count key = 0)) :=
  ⟨by decide, counter_add_count_sum [("a", 2), ("b", 1), ("a", 3)] (by decide)⟩

/-- Claim C5: Counter.add with an amount below 1 raises ValueError and leaves
the mapping exactly unchanged. -/
theorem counter_add_invalid (c : Counter) (item : String) (n : ℤ) (hn : n < 1) :
    c.add item n = (c, some "Repetition count is less than 1") := by
  simp [Counter.add, hn]

theorem counter_add_invalid_witness :
    Counter.add ⟨[("a", 1)]⟩ "a" 0 = (⟨[("a", 1)]⟩, some "Repetition count is less than 1") :=
  counter_add_invalid ⟨[("a", 1)]⟩ "a" 0 (by decide)

/-- Claim C8: applying a fee of 0 to a Purchase succeeds and is the identity
on the stored amount, while Counter.add with amount 0 raises ValueError and
leaves the counter unchanged. -/
theorem accumulate_zero_spec :
    (∀ p : Purchase, p.apply_fee 0 = (p, none)) ∧
    (∀ (c : Counter) (key : String),
      c.add key 0 = (c, some "Repetition count is less than 1")) := by
  constructor
  · intro p
    obtain ⟨u, co, a⟩ := p
    simp [Purchase.apply_fee]
  · intro c key
    simp [Counter.add]

theorem rankSort_perm {α : Type} [LinearOrderedAddCommGroup α] (l : List (String × α)) :
    (rankSort l).Perm l :=
  List.perm_insertionSort rankLe l

theorem rankSort_sorted {α : Type} [LinearOrderedAddCommGroup α] (l : List (String × α)) :
    List.Sorted rankLe (rankSort l) :=
  List.sorted_insertionSort rankLe l

theorem rankLe_value_le {α : Type} [LinearOrderedAddCommGroup α] {a b : String × α}
    (h : rankLe a b) : b.2 ≤ a.2 := by
  rcases h with h | ⟨h, _⟩
  · exact le_of_lt (by simpa using h)
  · exact le_of_eq (by simpa using h.symm)

theorem rankLe_key_le {α : Type} [LinearOrderedAddCommGroup α] {a b : String × α}
    (h : rankLe a b) (hv : a.2 = b.2) : a.1 ≤ b.1 := by
  rcases h with h | ⟨_, hk⟩
  · exact absurd (by simpa using h) (by simp [hv])
  · exact hk

theorem rankLe_strict {α : Type} [LinearOrderedAddCommGroup α] {a b : String × α}
    (h : rankLe a b) (hne : a.1 ≠ b.1) : b.2 < a.2 ∨ (a.2 = b.2 ∧ a.1 < b.1) := by
  rcases h with h | ⟨h, hk⟩
  · exact Or.inl (by simpa using h)
  · exact Or.inr ⟨by simpa using h, lt_of_le_of_ne hk hne⟩

/-- Claim C1: for every dict of totals with unique keys and every
nonnegative k, top_users returns entries sorted strictly by descending value
with ties broken by ascending key (transitively, via Pairwise), its length is
min(k, number of entries), k = 0 yields the empty list, and a k at least the
number of entries yields all entries. -/
theorem top_users_spec (totals : List (String × ℚ)) (k : ℕ)
    (hnd : (totals.map Prod.fst).Nodup) :
    (top_users totals (k : ℤ)).length = min k totals.length ∧
    List.Pairwise (fun a b => b.2 < a.2 ∨ (a.2 = b.2 ∧ a.1 < b.1))
      (top_users totals (k : ℤ)) ∧
    (k = 0 → top_users totals (k : ℤ) = []) ∧
    (totals.length ≤ k → (top_users totals (k : ℤ)).Perm totals) := by
  have hslice : top_users totals (k : ℤ) = (rankSort totals).take k := by
    rw [top_users, pySliceTo, if_pos (Int.natCast_nonneg k), Int.toNat_natCast]
  have hlen : (rankSort totals).length = totals.length :=
    (rankSort_perm totals).length_eq
  refine ⟨?_, ?_, ?_, ?_⟩
  · rw [hslice, List.length_take, hlen]
  · have hp : List.Pairwise rankLe (rankSort totals) := rankSort_sorted totals
    have hmapnd : ((rankSort totals).map Prod.fst).Nodup :=
      (((rankSort_perm totals).map Prod.fst).nodup_iff).mpr hnd
    have hnd' : List.Pairwise (fun a b : String × ℚ => a.1 ≠ b.1) (rankSort totals) :=
      List.pairwise_map.mp hmapnd
    have hcomb := (hp.and hnd').imp
      (fun hab => rankLe_strict hab.1 hab.2)
    rw [hslice]
    exact List.Pairwise.sublist (List.take_sublist _ _) hcomb
  · intro hk
    subst hk
    rw [hslice]
    rfl
  · intro hle
    rw [hslice, List.take_of_length_le (by rw [hlen]; exact hle)]
    exact rankSort_perm totals

theorem top_users_spec_witness :
    ([("b", (1:ℚ)), ("a", 2)].map Prod.fst).Nodup ∧
    ((top_users [("b", 1), ("a", 2)] ((1:ℕ) : ℤ)).length =
        min 1 [("b", (1:ℚ)), ("a", 2)].length ∧
      List.Pairwise (fun a b => b.2 < a.2 ∨ (a.2 = b.2 ∧ a.1 < b.1))
        (top_users [("b", 1), ("a", 2)] ((1:ℕ) : ℤ)) ∧
      ((1:ℕ) = 0 → top_users [("b", 1), ("a", 2)] ((1:ℕ) : ℤ) = []) ∧
      ([("b", (1:ℚ)), ("a", 2)].length ≤ 1 →
        (top_users [("b", 1), ("a", 2)] ((1:ℕ) : ℤ)).Perm [("b", 1), ("a", 2)])) :=
  ⟨by decide, top_users_spec [("b", 1), ("a", 2)] 1 (by decide)⟩

/-- Claim C10 counterexample: a nonempty totals dict and the negative limit
-1 on which top_users does return the empty list, refuting the clause that
the result is never empty for nonempty totals. -/
theorem top_users_neg_limit_counterexample :
    [("a", (1:ℚ))] ≠ [] ∧ (-1 : ℤ) < 0 ∧ top_users [("a", 1)] (-1) = [] :=
  ⟨by decide, by decide, of_decide_eq_true (by with_unfolding_all rfl)⟩

/-- Claim C10 as amended: for every totals dict and negative limit -m, the
Python slice drops the last m entries of the sorted sequence (so the result
is empty as soon as m reaches the number of entries, and m = 1 yields all but
the lowest-ranked entry); the at-most-limit truncation of C1 holds only for
nonnegative limits. -/
theorem top_users_neg_limit (totals : List (String × ℚ)) (m : ℕ) (hm : 0 < m) :
    top_users totals (-(m : ℤ)) = (rankSort totals).take (totals.length - m) ∧
    (m < totals.length → top_users totals (-(m : ℤ)) ≠ []) ∧
    (m = 1 → top_users totals (-(m : ℤ)) = (rankSort totals).dropLast) := by
  have hneg : ¬(0 ≤ -(m : ℤ)) := by omega
  have hlen : (rankSort totals).length = totals.length :=
    (rankSort_perm totals).length_eq
  have h₁ : top_users totals (-(m : ℤ)) = (rankSort totals).take (totals.length - m) := by
    rw [top_users, pySliceTo, if_neg hneg, neg_neg, Int.toNat_natCast, hlen]
  refine ⟨h₁, ?_, ?_⟩
  · intro hlt hempty
    rw [h₁] at hempty
    have := congrArg List.length hempty
    rw [List.length_take, hlen] at this
    simp only [List.length_nil] at this
    omega
  · intro hm1
    subst hm1
    rw [h₁, List.dropLast_eq_take, hlen]

theorem top_users_neg_limit_witness :
    0 < 1 ∧
    (top_users [("a", (1:ℚ)), ("b", 2)] (-((1:ℕ) : ℤ)) =
        (rankSort [("a", (1:ℚ)), ("b", 2)]).take ([("a", (1:ℚ)), ("b", 2)].length - 1) ∧
      (1 < [("a", (1:ℚ)), ("b", 2)].length →
        top_users [("a", (1:ℚ)), ("b", 2)] (-((1:ℕ) : ℤ)) ≠ []) ∧
      ((1:ℕ) = 1 → top_users [("a", (1:ℚ)), ("b", 2)] (-((1:ℕ) : ℤ)) =
        (rankSort [("a", (1:ℚ)), ("b", 2)]).dropLast)) :=
  ⟨by decide, top_users_neg_limit [("a", 1), ("b", 2)] 1 (by decide)⟩

theorem le_foldl_max {β : Type} [LinearOrder β] (l : List β) (a : β) :
    a ≤ l.foldl max a ∧ ∀ x ∈ l, x ≤ l.foldl max a := by
  induction l generalizing a with
  | nil => exact ⟨le_refl a, by simp⟩
  | cons b t ih =>
    rcases ih (max a b) with ⟨h₁, h₂⟩
    refine ⟨le_trans (le_max_left a b) h₁, ?_⟩
    intro x hx
    rcases List.mem_cons.mp hx with rfl | hx
    · exact le_trans (le_max_right a x) h₁
    · exact h₂ x hx

theorem foldl_max_mem {β : Type} [LinearOrder β] (l : List β) (a : β) :
    l.foldl max a = a ∨ l.foldl max a ∈ l := by
  induction l generalizing a with
  | nil => exact Or.inl rfl
  | cons b t ih =>
    rcases ih (max a b) with h | h
    · rcases max_choice a b with hm | hm
      · exact Or.inl (by rw [List.foldl_cons, h, hm])
      · exact Or.inr (by rw [List.foldl_cons, h, hm]; exact List.mem_cons_self b t)
    · exact Or.inr (List.mem_cons_of_mem b (by rw [List.foldl_cons]; exact h))

theorem most_common_spec {c : Counter} (hne : c.words ≠ []) :
    ∃ k v, c.most_common = .ok (k, v) ∧ (k, v) ∈ c.words ∧
      (∀ x ∈ c.words, x.2 ≤ v) ∧ (∀ x ∈ c.words, x.2 = v → k ≤ x.1) := by
  obtain ⟨w⟩ := c
  cases w with
  | nil => exact absurd rfl hne
  | cons e t =>
    obtain ⟨k₁, v₁⟩ := e
    have hmax : ∀ x ∈ (k₁, v₁) :: t, x.2 ≤ (t.map Prod.snd).foldl max v₁ := by
      intro x hx
      rcases List.mem_cons.mp hx with rfl | hx
      · exact (le_foldl_max (t.map Prod.snd) v₁).1
      · exact (le_foldl_max (t.map Prod.snd) v₁).2 x.2 (List.mem_map_of_mem Prod.snd hx)
    have hattain : ∃ y ∈ (k₁, v₁) :: t, y.2 = (t.map Prod.snd).foldl max v₁ := by
      rcases foldl_max_mem (t.map Prod.snd) v₁ with h | h
      · exact ⟨(k₁, v₁), List.mem_cons_self _ _, h.symm⟩
      · obtain ⟨y, hy, hyv⟩ := List.mem_map.mp h
        exact ⟨y, List.mem_cons_of_mem _ hy, hyv⟩
    have hl_ne :
        ((((k₁, v₁) :: t).filter
          (fun e => decide (e.2 = (t.map Prod.snd).foldl max v₁))).map Prod.fst) ≠ [] := by
      obtain ⟨y, hy, hyv⟩ := hattain
      have hyf : y ∈ ((k₁, v₁) :: t).filter
          (fun e => decide (e.2 = (t.map Prod.snd).foldl max v₁)) :=
        List.mem_filter.mpr ⟨hy, by simp [hyv]⟩
      exact List.ne_nil_of_mem (List.mem_map_of_mem Prod.fst hyf)
    have hs_ne : List.insertionSort (· ≤ ·)
        ((((k₁, v₁) :: t).filter
          (fun e => decide (e.2 = (t.map Prod.snd).foldl max v₁))).map Prod.fst) ≠ [] := by
      intro h
      have hlen := congrArg List.length h
      rw [List.length_insertionSort] at hlen
      simp only [List.length_nil] at hlen
      exact hl_ne (List.length_eq_zero.mp hlen)
    cases hs : List.insertionSort (· ≤ ·)
        ((((k₁, v₁) :: t).filter
          (fun e => decide (e.2 = (t.map Prod.snd).foldl max v₁))).map Prod.fst) with
    | nil => exact absurd hs hs_ne
    | cons k rest =>
      have heq : Counter.most_common ⟨(k₁, v₁) :: t⟩ =
          match List.insertionSort (· ≤ ·)
              ((((k₁, v₁) :: t).filter
                (fun e => decide (e.2 = (t.map Prod.snd).foldl max v₁))).map Prod.fst) with
          | [] => Except.error "IndexError"
          | k :: _ => Except.ok (k, (t.map Prod.snd).foldl max v₁) := rfl
      have hsorted := List.sorted_insertionSort (α := String) (· ≤ ·)
        ((((k₁, v₁) :: t).filter
          (fun e => decide (e.2 = (t.map Prod.snd).foldl max v₁))).map Prod.fst)
      rw [hs] at hsorted
      have hkmem : k ∈ (((k₁, v₁) :: t).filter
          (fun e => decide (e.2 = (t.map Prod.snd).foldl max v₁))).map Prod.fst := by
        have : k ∈ List.insertionSort (· ≤ ·)
            ((((k₁, v₁) :: t).filter
              (fun e => decide (e.2 = (t.map Prod.snd).foldl max v₁))).map Prod.fst) := by
          rw [hs]
          exact List.mem_cons_self _ _
        exact (List.mem_insertionSort _).mp this
      obtain ⟨y, hyf, hyk⟩ := List.mem_map.mp hkmem
      have hymem := (List.mem_filter.mp hyf).1
      have hyval : y.2 = (t.map Prod.snd).foldl max v₁ := by
        have := (List.mem_filter.mp hyf).2
        simpa using this
      refine ⟨k, (t.map Prod.snd).foldl max v₁, ?_, ?_, hmax, ?_⟩
      · rw [heq, hs]
      · have : y = (k, (t.map Prod.snd).foldl max v₁) := by
          obtain ⟨y₁, y₂⟩ := y
          simp only [Prod.mk.injEq]
          exact ⟨hyk, hyval⟩
        exact this ▸ hymem
      · intro x hx hxv
        have hxf : x ∈ ((k₁, v₁) :: t).filter
            (fun e => decide (e.2 = (t.map Prod.snd).foldl max v₁)) :=
          List.mem_filter.mpr ⟨hx, by simp [hxv]⟩
        have hxl : x.1 ∈ List.insertionSort (· ≤ ·)
            ((((k₁, v₁) :: t).filter
              (fun e => decide (e.2 = (t.map Prod.snd).foldl max v₁))).map Prod.fst) :=
          (List.mem_insertionSort _).mpr (List.mem_map_of_mem Prod.fst hxf)
        rw [hs] at hxl
        rcases List.mem_cons.mp hxl with h | h
        · exact le_of_eq h.symm
        · exact List.rel_of_sorted_cons hsorted x.1 h

theorem rank_top_unique {α : Type} [LinearOrderedAddCommGroup α] {l : List (String × α)}
    {h p : String × α} (hmem : h ∈ l) (hmax : ∀ x ∈ l, x.2 ≤ h.2)
    (hmin : ∀ x ∈ l, x.2 = h.2 → h.1 ≤ x.1) (pmem : p ∈ l)
    (pmax : ∀ x ∈ l, x.2 ≤ p.2) (pmin : ∀ x ∈ l, x.2 = p.2 → p.1 ≤ x.1) : h = p := by
  have hv : h.2 = p.2 := le_antisymm (pmax h hmem) (hmax p pmem)
  have hk : h.1 = p.1 :=
    le_antisymm (hmin p pmem hv.symm) (pmin h hmem hv)
  obtain ⟨h₁, h₂⟩ := h
  obtain ⟨p₁, p₂⟩ := p
  simp only [Prod.mk.injEq]
  exact ⟨hk, hv⟩

theorem rankSort_head {α : Type} [LinearOrderedAddCommGroup α] {l : List (String × α)}
    {h : String × α} {t : List (String × α)} (he : rankSort l = h :: t) :
    h ∈ l ∧ (∀ x ∈ l, x.2 ≤ h.2) ∧ (∀ x ∈ l, x.2 = h.2 → h.1 ≤ x.1) := by
  have hsorted := rankSort_sorted l
  rw [he] at hsorted
  have hperm := rankSort_perm l
  have hmem : h ∈ l := by
    have : h ∈ rankSort l := by
      rw [he]
      exact List.mem_cons_self _ _
    exact hperm.mem_iff.mp this
  have hrel : ∀ x ∈ l, rankLe h x := by
    intro x hx
    have hx' : x ∈ rankSort l := hperm.mem_iff.mpr hx
    rw [he] at hx'
    rcases List.mem_cons.mp hx' with rfl | hx'
    · exact (IsTotal.total (r := rankLe) x x).elim id id
    · exact List.rel_of_sorted_cons hsorted x hx'
  exact ⟨hmem, fun x hx => rankLe_value_le (hrel x hx),
    fun x hx hxv => rankLe_key_le (hrel x hx) hxv.symm⟩

/-- Claim C3: Counter.most_common raises ValueError exactly when the counter
is empty, and on a nonempty counter returns the same (key, value) pair as the
sole element of top_users applied to the counter entries (cast to rationals)
with limit 1. -/
theorem most_common_eq_top_users (c : Counter) :
    (c.words = [] → c.most_common = .error "Counter is empty") ∧
    (c.words ≠ [] → ∃ k v, c.most_common = .ok (k, v) ∧
      top_users (c.words.map (fun e => (e.1, (e.2 : ℚ)))) 1 = [(k, (v : ℚ))]) := by
  constructor
  · intro hw
    obtain ⟨w⟩ := c
    simp only at hw
    subst hw
    rfl
  · intro hne
    obtain ⟨k, v, hok, hmem, hmax, hmin⟩ := most_common_spec hne
    refine ⟨k, v, hok, ?_⟩
    have hmem' : (k, (v : ℚ)) ∈ c.words.map (fun e => (e.1, (e.2 : ℚ))) := by
      have := List.mem_map_of_mem (fun e : String × ℤ => (e.1, (e.2 : ℚ))) hmem
      simpa using this
    have hmax' : ∀ x ∈ c.words.map (fun e => (e.1, (e.2 : ℚ))), x.2 ≤ (v : ℚ) := by
      intro x hx
      obtain ⟨y, hy, rfl⟩ := List.mem_map.mp hx
      exact_mod_cast Int.cast_le.mpr (hmax y hy)
    have hmin' : ∀ x ∈ c.words.map (fun e => (e.1, (e.2 : ℚ))),
        x.2 = (v : ℚ) → k ≤ x.1 := by
      intro x hx hxv
      obtain ⟨y, hy, rfl⟩ := List.mem_map.mp hx
      have hxv' : (y.2 : ℚ) = (v : ℚ) := hxv
      exact hmin y hy (by exact_mod_cast hxv')
    have hne' : rankSort (c.words.map (fun e => (e.1, (e.2 : ℚ)))) ≠ [] := by
      intro h
      have hlen := (rankSort_perm (c.words.map (fun e => (e.1, (e.2 : ℚ))))).length_eq
      rw [h] at hlen
      have : c.words.map (fun e => (e.1, (e.2 : ℚ))) = [] :=
        List.length_eq_zero.mp hlen.symm
      exact hne (List.map_eq_nil_iff.mp this)
    cases hs : rankSort (c.words.map (fun e => (e.1, (e.2 : ℚ)))) with
    | nil => exact absurd hs hne'
    | cons hd rest =>
      obtain ⟨hhmem, hhmax, hhmin⟩ := rankSort_head hs
      have hhd : hd = (k, (v : ℚ)) :=
        rank_top_unique hhmem hhmax hhmin hmem' hmax' hmin'
      have : top_users (c.words.map (fun e => (e.1, (e.2 : ℚ)))) 1 = [hd] := by
        rw [top_users, pySliceTo, if_pos (by omega : (0:ℤ) ≤ 1), hs]
        rfl
      rw [this, hhd]

theorem most_common_eq_top_users_witness :
    (⟨[]⟩ : Counter).most_common = .error "Counter is empty" ∧
    (∃ k v, (⟨[("the", 3), ("cat", 3)]⟩ : Counter).most_common = .ok (k, v) ∧
      top_users ((⟨[("the", 3), ("cat", 3)]⟩ : Counter).words.map
        (fun e => (e.1, (e.2 : ℚ)))) 1 = [(k, (v : ℚ))]) :=
  ⟨(most_common_eq_top_users ⟨[]⟩).1 rfl,
   (most_common_eq_top_users ⟨[("the", 3), ("cat", 3)]⟩).2 (by decide)⟩

theorem init_ok_iff (u co : String) (a : ℚ) :
    (∃ p, Purchase.init u co a = .ok p) ↔ (u.trim ≠ "" ∧ 0 ≤ a) := by
  unfold Purchase.init
  by_cases h₁ : u.trim = ""
  · simp [h₁]
  · by_cases h₂ : a < 0
    · simp [h₁, h₂, not_le.mpr h₂]
    · simp [h₁, h₂, not_lt.mp h₂]

theorem init_ok_props {u co : String} {a : ℚ} {p : Purchase}
    (h : Purchase.init u co a = .ok p) :
    p = ⟨u.trim, co.trim, a⟩ ∧ u.trim ≠ "" ∧ 0 ≤ a := by
  unfold Purchase.init at h
  by_cases h₁ : u.trim = ""
  · simp [h₁] at h
  · by_cases h₂ : a < 0
    · simp [h₁, h₂] at h
    · simp only [h₁, if_false, h₂, if_neg, ite_false, Except.ok.injEq] at h
      exact ⟨h.symm, h₁, not_lt.mp h₂⟩

theorem initAll_ok_iff (records : List (String × String × ℚ)) :
    (∃ ps, initAll records = .ok ps) ↔ ∀ r ∈ records, r.1.trim ≠ "" ∧ 0 ≤ r.2.2 := by
  induction records with
  | nil => simp [initAll]
  | cons r rest ih =>
    obtain ⟨u, co, a⟩ := r
    constructor
    · rintro ⟨ps, hps⟩
      intro x hx
      cases hinit : Purchase.init u co a with
      | error e =>
        simp only [initAll, hinit] at hps
        exact Except.noConfusion hps
      | ok p =>
        cases hrest : initAll rest with
        | error e =>
          simp only [initAll, hinit, hrest] at hps
          exact Except.noConfusion hps
        | ok qs =>
          rcases List.mem_cons.mp hx with rfl | hx
          · simpa using (init_ok_iff u co a).mp ⟨p, hinit⟩
          · exact (ih.mp ⟨qs, hrest⟩) x hx
    · intro hall
      obtain ⟨p, hp⟩ := (init_ok_iff u co a).mpr
        (by simpa using hall (u, co, a) (List.mem_cons_self _ _))
      obtain ⟨qs, hqs⟩ := ih.mpr (fun x hx => hall x (List.mem_cons_of_mem _ hx))
      exact ⟨p :: qs, by simp only [initAll, hp, hqs]⟩

theorem initAll_ok_mem {records : List (String × String × ℚ)} {ps : List Purchase}
    (h : initAll records = .ok ps) :
    ∀ p ∈ ps, ∃ r ∈ records, Purchase.init r.1 r.2.1 r.2.2 = .ok p := by
  induction records generalizing ps with
  | nil =>
    simp only [initAll, Except.ok.injEq] at h
    subst h
    simp
  | cons r rest ih =>
    obtain ⟨u, co, a⟩ := r
    cases hinit : Purchase.init u co a with
    | error e =>
      simp only [initAll, hinit] at h
      exact Except.noConfusion h
    | ok p₀ =>
      cases hrest : initAll rest with
      | error e =>
        simp only [initAll, hinit, hrest] at h
        exact Except.noConfusion h
      | ok qs =>
        simp only [initAll, hinit, hrest, Except.ok.injEq] at h
        subst h
        intro p hp
        rcases List.mem_cons.mp hp with rfl | hp
        · exact ⟨(u, co, a), List.mem_cons_self _ _, hinit⟩
        · obtain ⟨r, hr, hr2⟩ := ih hrest p hp
          exact ⟨r, List.mem_cons_of_mem _ hr, hr2⟩

/-- Claim C4 counterexample: a single record with a negative amount that does
not match the requested category. No matching record carries a negative
amount, yet build_filtered_ledger fails, because validation happens in the
Purchase initialiser before any category filtering. -/
theorem build_filtered_ledger_counterexample :
    (∀ r ∈ [("bob", "FR", (-1:ℚ))], ¬(r.2.1 = "UK" ∧ r.2.2 < 0)) ∧
    build_filtered_ledger [("bob", "FR", -1)] "UK" = .error "amount must be non-negative" := by
  constructor
  · intro r hr
    rw [List.mem_singleton] at hr
    subst hr
    rintro ⟨h, _⟩
    exact absurd h (by decide)
  · exact of_decide_eq_true (by with_unfolding_all rfl)

/-- Claim C4 as amended: build_filtered_ledger fails with a record error as
soon as any record, matching the category or not, carries a negative amount
(so in particular when a matching one does) or a blank user, and succeeds
exactly when every record has a non-blank user and a nonnegative amount. -/
theorem build_filtered_ledger_spec (records : List (String × String × ℚ)) (category : String) :
    ((∃ r ∈ records, r.2.1 = category ∧ r.2.2 < 0) →
      ∃ e, build_filtered_ledger records category = .error e) ∧
    ((∃ r ∈ records, r.2.2 < 0 ∨ r.1.trim = "") →
      ∃ e, build_filtered_ledger records category = .error e) ∧
    ((∃ l, build_filtered_ledger records category = .ok l) ↔
      ∀ r ∈ records, r.1.trim ≠ "" ∧ 0 ≤ r.2.2) := by
  have hok_iff : (∃ l, build_filtered_ledger records category = .ok l) ↔
      ∀ r ∈ records, r.1.trim ≠ "" ∧ 0 ≤ r.2.2 := by
    constructor
    · rintro ⟨l, hl⟩
      cases hi : initAll records with
      | error e =>
        simp only [build_filtered_ledger, hi] at hl
        exact Except.noConfusion hl
      | ok ps => exact (initAll_ok_iff records).mp ⟨ps, hi⟩
    · intro hall
      obtain ⟨ps, hps⟩ := (initAll_ok_iff records).mpr hall
      exact ⟨total_spend_by_user ps category, by simp only [build_filtered_ledger, hps]⟩
  have herr : (∃ r ∈ records, r.2.2 < 0 ∨ r.1.trim = "") →
      ∃ e, build_filtered_ledger records category = .error e := by
    rintro ⟨r, hr, hbad⟩
    cases hb : build_filtered_ledger records category with
    | error e => exact ⟨e, rfl⟩
    | ok l =>
      have hv := hok_iff.mp ⟨l, hb⟩ r hr
      rcases hbad with h | h
      · exact absurd h (not_lt.mpr hv.2)
      · exact absurd h hv.1
  exact ⟨fun ⟨r, hr, _, hneg⟩ => herr ⟨r, hr, Or.inl hneg⟩, herr, hok_iff⟩

theorem build_filtered_ledger_spec_witness :
    (∃ e, build_filtered_ledger [("alice", "UK", -1)] "UK" = .error e) ∧
    (∃ e, build_filtered_ledger [("  ", "UK", 5)] "UK" = .error e) ∧
    (∃ l, build_filtered_ledger [("alice", "UK", 1)] "UK" = .ok l) :=
  ⟨(build_filtered_ledger_spec [("alice", "UK", -1)] "UK").1
    ⟨("alice", "UK", -1), List.mem_singleton.mpr rfl, rfl,
      of_decide_eq_true (by with_unfolding_all rfl)⟩,
   (build_filtered_ledger_spec [("  ", "UK", 5)] "UK").2.1
    ⟨("  ", "UK", 5), List.mem_singleton.mpr rfl,
      Or.inr (of_decide_eq_true (by with_unfolding_all rfl))⟩,
   (build_filtered_ledger_spec [("alice", "UK", 1)] "UK").2.2.mpr
    (by
      intro r hr
      rw [List.mem_singleton] at hr
      subst hr
      exact ⟨of_decide_eq_true (by with_unfolding_all rfl),
        of_decide_eq_true (by with_unfolding_all rfl)⟩)⟩

/-- Claim C7 counterexample: a fee adjustment on a purchase whose user is
absent from the category-filtered ledger succeeds silently (and still
creates no ledger key), refuting the clause that an adjustment on an absent
key fails with an error. -/
theorem apply_fee_counterexample :
    (Purchase.mk "carla" "FR" 100).apply_fee (1/4) =
      (Purchase.mk "carla" "FR" (100 + 1/4), none) ∧
    total_spend_by_user [((Purchase.mk "carla" "FR" 100).apply_fee (1/4)).1] "UK" = [] :=
  ⟨of_decide_eq_true (by with_unfolding_all rfl),
   of_decide_eq_true (by with_unfolding_all rfl)⟩

/-- Claim C7 as amended: apply_fee adds a nonnegative delta to the amount of
the Purchase object it is called on, and fails with ValueError exactly when
the delta is negative, leaving the object unchanged. It performs no ledger
key lookup, so absence of the user from a ledger is not an error condition
and no ledger key is ever created by it. -/
theorem apply_fee_spec (p : Purchase) (fee : ℚ) :
    (0 ≤ fee → p.apply_fee fee = (⟨p.user, p.country, p.amount + fee⟩, none)) ∧
    (fee < 0 → p.apply_fee fee = (p, some "fee must be non-negative")) := by
  constructor
  · intro h
    simp [Purchase.apply_fee, not_lt.mpr h]
  · intro h
    simp [Purchase.apply_fee, h]

theorem apply_fee_spec_witness :
    (Purchase.mk "alice" "UK" 10).apply_fee (1/4) =
      (⟨(Purchase.mk "alice" "UK" 10).user, (Purchase.mk "alice" "UK" 10).country,
        (Purchase.mk "alice" "UK" 10).amount + 1/4⟩, none) ∧
    (Purchase.mk "alice" "UK" 10).apply_fee (-1) =
      (Purchase.mk "alice" "UK" 10, some "fee must be non-negative") :=
  ⟨(apply_fee_spec (Purchase.mk "alice" "UK" 10) (1/4)).1 (by norm_num),
   (apply_fee_spec (Purchase.mk "alice" "UK" 10) (-1)).2 (by norm_num)⟩

/-- Claim C9: the main pipeline of lab4.py over the five demo records with
category UK, after the fee of 0.25 on the first purchase of alice, yields the
top-3 list [(alice, 12.25), (bob, 8.5)]. -/
theorem main_leaders_spec :
    mainLeaders = .ok [("alice", 12.25), ("bob", 8.5)] :=
  of_decide_eq_true (by with_unfolding_all rfl)

theorem total_spend_nonneg_aux (ps : List Purchase) (country : String)
    (acc : List (String × ℚ)) (hacc : ∀ e ∈ acc, 0 ≤ e.2)
    (hps : ∀ p ∈ ps, 0 ≤ p.amount) :
    ∀ e ∈ ps.foldl
      (fun totals p =>
        if p.is_in_country country then
          dictSet totals p.user (dictGet totals p.user 0 + p.amount)
        else totals) acc, 0 ≤ e.2 := by
  induction ps generalizing acc with
  | nil => simpa using hacc
  | cons p t ih =>
    intro e he
    rw [List.foldl_cons] at he
    by_cases hc : p.is_in_country country = true
    · refine ih (dictSet acc p.user (dictGet acc p.user 0 + p.amount)) ?_
        (fun q hq => hps q (List.mem_cons_of_mem _ hq)) e ?_
      · intro x hx
        rcases mem_dictSet hx with rfl | hx
        · have hd : 0 ≤ dictGet acc p.user 0 := by
            rcases dictGet_eq_or_mem acc p.user 0 with h | h
            · rw [h]
            · exact hacc _ h
          exact add_nonneg hd (hps p (List.mem_cons_self _ _))
        · exact hacc x hx
      · simpa [hc] using he
    · refine ih acc hacc (fun q hq => hps q (List.mem_cons_of_mem _ hq)) e ?_
      simpa [hc] using he

/-- Claim C6: reachable counter states have only nonnegative stored counts;
Counter.add never decreases a stored count; validly constructed purchases
have nonnegative amounts and apply_fee never decreases them; and every
ledger built by the filtered aggregation, from purchases with nonnegative
amounts or from validly constructed records, stores only nonnegative
values. -/
theorem ledger_invariants :
    (∀ c : Counter, CounterReach c → ∀ e ∈ c.words, 0 ≤ e.2) ∧
    (∀ (c : Counter) (item : String) (n : ℤ) (key : String),
      c.count key ≤ ((c.add item n).1).count key) ∧
    (∀ (u co : String) (a : ℚ) (p : Purchase),
      Purchase.init u co a = .ok p → 0 ≤ p.amount) ∧
    (∀ (p : Purchase) (fee : ℚ), p.amount ≤ ((p.apply_fee fee).1).amount) ∧
    (∀ (ps : List Purchase) (category : String), (∀ p ∈ ps, 0 ≤ p.amount) →
      ∀ e ∈ total_spend_by_user ps category, 0 ≤ e.2) ∧
    (∀ (records : List (String × String × ℚ)) (category : String)
      (l : List (String × ℚ)), build_filtered_ledger records category = .ok l →
      ∀ e ∈ l, 0 ≤ e.2) := by
  have htot : ∀ (ps : List Purchase) (category : String),
      (∀ p ∈ ps, 0 ≤ p.amount) →
      ∀ e ∈ total_spend_by_user ps category, 0 ≤ e.2 := by
    intro ps category hps
    exact total_spend_nonneg_aux ps category [] (by simp) hps
  refine ⟨?_, ?_, ?_, ?_, htot, ?_⟩
  · intro c hreach
    induction hreach with
    | empty =>
      intro e he
      simp [Counter.empty] at he
    | step c' item n hr hn ih =>
      intro e he
      have hlt : ¬n < 1 := not_lt.mpr hn
      have hw : ((c'.add item n).1).words =
          dictSet c'.words item (dictGet c'.words item 0 + n) := by
        simp [Counter.add, hlt]
      rw [hw] at he
      rcases mem_dictSet he with rfl | hmem
      · have hd : 0 ≤ dictGet c'.words item 0 := by
          rcases dictGet_eq_or_mem c'.words item 0 with h | h
          · rw [h]
          · exact ih (item, dictGet c'.words item 0) h
        exact add_nonneg hd (le_trans zero_le_one hn)
      · exact ih e hmem
  · intro c item n key
    by_cases hn : n < 1
    · simp [Counter.add, hn]
    · have hcc := counter_count_add c item n (not_lt.mp hn)
      rw [hcc.2 key]
      have hpos : (0:ℤ) ≤ if item = key then n else 0 := by
        split
        · exact le_trans zero_le_one (not_lt.mp hn)
        · exact le_refl 0
      exact le_add_of_nonneg_right hpos
  · intro u co a p h
    obtain ⟨rfl, _, ha⟩ := init_ok_props h
    exact ha
  · intro p fee
    by_cases hf : fee < 0
    · simp [Purchase.apply_fee, hf]
    · simp only [Purchase.apply_fee, hf, if_neg, ite_false]
      exact le_add_of_nonneg_right (not_lt.mp hf)
  · intro records category l hok e he
    cases hi : initAll records with
    | error e' =>
      simp only [build_filtered_ledger, hi] at hok
      exact Except.noConfusion hok
    | ok ps =>
      simp only [build_filtered_ledger, hi, Except.ok.injEq] at hok
      subst hok
      refine htot ps category ?_ e he
      intro p hp
      obtain ⟨r, _, hr⟩ := initAll_ok_mem hi p hp
      obtain ⟨rfl, _, ha⟩ := init_ok_props hr
      exact ha

theorem ledger_invariants_witness :
    (∀ e ∈ ((Counter.empty.add "a" 2).1).words, 0 ≤ e.2) ∧
    (0 ≤ (Purchase.mk "alice" "UK" 10).amount) ∧
    (∀ e ∈ total_spend_by_user [Purchase.mk "alice" "UK" 10] "UK", 0 ≤ e.2) ∧
    (∀ e ∈ [("alice", (0:ℚ) + 10)], 0 ≤ e.2) :=
  ⟨ledger_invariants.1 ((Counter.empty.add "a" 2).1)
    (CounterReach.step Counter.empty "a" 2 CounterReach.empty (by decide)),
   ledger_invariants.2.2.1 "alice" "UK" 10 (Purchase.mk "alice" "UK" 10)
    (of_decide_eq_true (by with_unfolding_all rfl)),
   ledger_invariants.2.2.2.2.1 [Purchase.mk "alice" "UK" 10] "UK"
    (by
      intro p hp
      rw [List.mem_singleton] at hp
      subst hp
      norm_num),
   ledger_invariants.2.2.2.2.2 [("alice", "UK", 10)] "UK" [("alice", (0:ℚ) + 10)]
    (of_decide_eq_true (by with_unfolding_all rfl))⟩

end Spec2Proof
